import Mathlib

set_option maxRecDepth 40000

/-!
Verification development for the gen-voice repository.

Shallow embedding of `src/history_manager.py` (the bounded history store) and
`src/enhanced_tts_manager.py` (the TTS engine registry), with theorems settling
the specification claims about them.

Modelling conventions:
* The filesystem is a list of file paths used as a finite set (`pathExists`,
  `diskWrite`, `delete_audio_file` mirror `os.path.exists`, `open(..,'wb')`,
  `os.remove`).
* Python `datetime` values are integers (seconds); `datetime.fromisoformat`
  becomes an explicit parse parameter `parse : String → Option Int`, so a
  timestamp string may fail to parse exactly as in the source.
  `timedelta(days = d)` is `d * 86400`.
* `uuid4()` and `datetime.now().isoformat()` are inputs of `add_audio`
  (fields of `AddReq`), and a possible payload-write failure is the explicit
  `writeOk` flag; `add_audio` returning `none` models the storage-write
  failure path (`return None` in the source).
* Python dict/list values for history entries become the `Entry` structure.
-/

namespace GenVoice

/-- One history entry, mirroring the dict built in `HistoryManager.add_audio`. -/
structure Entry where
  id : String
  text : String
  full_text : String
  voice : String
  model_type : String
  filename : String
  filepath : String
  timestamp : String
  size : Nat
  deriving DecidableEq

/-- Constructor-time configuration of `HistoryManager`. -/
structure Config where
  storage_dir : String
  max_files : Nat
  auto_cleanup_days : Int
  deriving DecidableEq

/-- The mutable state of a `HistoryManager`: the in-memory `self.history`
list (newest first), the persisted contents of `history.json`
(`savedIndex`, updated by `_save_history`), and the set of files on disk. -/
structure StoreState where
  history : List Entry
  savedIndex : List Entry
  disk : List String
  deriving DecidableEq

/-- Model of `os.path.exists`. -/
def pathExists (disk : List String) (p : String) : Bool :=
  decide (p ∈ disk)

/-- Effect of writing a file (`open(filepath, 'wb')` + `f.write`). -/
def diskWrite (disk : List String) (p : String) : List String :=
  if p ∈ disk then disk else p :: disk

/-- Model of `HistoryManager._delete_audio_file`: returns `true` and removes
the file iff it exists on disk. -/
def delete_audio_file (disk : List String) (p : String) : Bool × List String :=
  if p ∈ disk then (true, disk.filter (fun q => q ≠ p)) else (false, disk)

/-- The inputs of one `add_audio` call: the generated uuid and timestamp,
the caller-supplied text/voice/model, and the payload bytes. -/
structure AddReq where
  audio_id : String
  timestamp : String
  text : String
  voice : String
  model_type : String
  audio_data : List Nat
  deriving DecidableEq

/-- The history entry that `add_audio` builds for a request
(`text[:200]` truncation, `filename = id + ".wav"`, joined file path). -/
def mkEntry (cfg : Config) (r : AddReq) : Entry :=
  let filename := r.audio_id ++ ".wav"
  { id := r.audio_id
    text := r.text.take 200
    full_text := r.text
    voice := r.voice
    model_type := r.model_type
    filename := filename
    filepath := cfg.storage_dir ++ "/" ++ filename
    timestamp := r.timestamp
    size := r.audio_data.length }

/-- Deleting the payload files of a list of evicted entries, in order
(the `for old_entry in self.history[self.max_files:]` loop). -/
def evictFiles (disk : List String) : List Entry → List String
  | [] => disk
  | e :: rest => evictFiles (delete_audio_file disk e.filepath).2 rest

/-- Model of `HistoryManager.add_audio`.  `writeOk = false` is the branch
where writing the payload file raises: the source logs and `return None`
(this `none` is the spec's `StorageWriteError` outcome) without touching
the history.  Otherwise the entry is prepended, the tail beyond
`max_files` is evicted (payload files deleted), and the index is saved. -/
def add_audio (cfg : Config) (s : StoreState) (r : AddReq) (writeOk : Bool) :
    Option Entry × StoreState :=
  match writeOk with
  | false => (none, s)
  | true =>
    let entry := mkEntry cfg r
    let disk1 := diskWrite s.disk entry.filepath
    let h1 := entry :: s.history
    if h1.length > cfg.max_files then
      let h2 := h1.take cfg.max_files
      let disk2 := evictFiles disk1 (h1.drop cfg.max_files)
      (some entry, { history := h2, savedIndex := h2, disk := disk2 })
    else
      (some entry, { history := h1, savedIndex := h1, disk := disk1 })

/-- A sequence of successful `add_audio` calls, applied in order. -/
def applyAdds (cfg : Config) : StoreState → List AddReq → StoreState
  | s, [] => s
  | s, r :: rs => applyAdds cfg (add_audio cfg s r true).2 rs

/-- Python slice `l[:n]` for an arbitrary integer `n`
(negative `n` counts from the end). -/
def pyTake (n : Int) (l : List Entry) : List Entry :=
  if 0 ≤ n then l.take n.toNat else l.take (l.length - (-n).toNat)

/-- Model of `HistoryManager.get_history`.  The source guard `if limit:`
is Python truthiness: it takes the slice only when `limit` is present
and nonzero. -/
def get_history (s : StoreState) (limit : Option Int) : List Entry :=
  match limit with
  | some n => if n ≠ 0 then pyTake n s.history else s.history
  | none => s.history

/-- The `for entry in self.history` loop of `get_audio_file`: returns the
result, the surviving history, and whether a stale entry was removed. -/
def gaf_aux (disk : List String) (audio_id : String) :
    List Entry → Option String × List Entry × Bool
  | [] => (none, [], false)
  | e :: rest =>
    if e.id = audio_id then
      if pathExists disk e.filepath then (some e.filepath, e :: rest, false)
      else (none, rest, true)
    else
      let p := gaf_aux disk audio_id rest
      (p.1, e :: p.2.1, p.2.2)

/-- Model of `HistoryManager.get_audio_file`: path lookup with the
self-healing removal (and `_save_history`) when the backing file is gone. -/
def get_audio_file (s : StoreState) (audio_id : String) :
    Option String × StoreState :=
  let p := gaf_aux s.disk audio_id s.history
  (p.1, { history := p.2.1
          savedIndex := if p.2.2 then p.2.1 else s.savedIndex
          disk := s.disk })

/-- The `for i, entry in enumerate(self.history)` loop of `delete_audio`:
find the first entry with the id, delete its file, drop it. -/
def del_aux (disk : List String) (audio_id : String) :
    List Entry → Bool × List Entry × List String
  | [] => (false, [], disk)
  | e :: rest =>
    if e.id = audio_id then
      (true, rest, (delete_audio_file disk e.filepath).2)
    else
      let p := del_aux disk audio_id rest
      (p.1, e :: p.2.1, p.2.2)

/-- Model of `HistoryManager.delete_audio`. -/
def delete_audio (s : StoreState) (audio_id : String) : Bool × StoreState :=
  let p := del_aux s.disk audio_id s.history
  if p.1 then (true, { history := p.2.1, savedIndex := p.2.1, disk := p.2.2 })
  else (false, s)

/-- One iteration of the `clear_all` loop: try to delete the entry's file,
incrementing the count only when a file was actually deleted. -/
def clearStep (acc : Nat × List String) (e : Entry) : Nat × List String :=
  let r := delete_audio_file acc.2 e.filepath
  (if r.1 then acc.1 + 1 else acc.1, r.2)

/-- Model of `HistoryManager.clear_all`: delete every entry's file
(counting only deletions that found a file), empty the history, save. -/
def clear_all (s : StoreState) : Nat × StoreState :=
  let res := s.history.foldl clearStep (0, s.disk)
  (res.1, { history := [], savedIndex := [], disk := res.2 })

/-- Whether `cleanup_old_files` classifies an entry as expired: its
timestamp parses and is strictly before the cutoff.  A parse failure is
the `except` branch that keeps the entry. -/
def isExpired (parse : String → Option Int) (cutoff : Int) (e : Entry) : Bool :=
  match parse e.timestamp with
  | some t => decide (t < cutoff)
  | none => false

/-- The `for entry in self.history` loop of `cleanup_old_files`: returns
`new_history`, `removed_count` (files actually deleted), and the disk. -/
def cleanup_aux (parse : String → Option Int) (cutoff : Int) :
    List Entry → List String → List Entry × Nat × List String
  | [], disk => ([], 0, disk)
  | e :: rest, disk =>
    match parse e.timestamp with
    | some t =>
      if t < cutoff then
        let r := delete_audio_file disk e.filepath
        let rec' := cleanup_aux parse cutoff rest r.2
        (rec'.1, (if r.1 then 1 else 0) + rec'.2.1, rec'.2.2)
      else
        let rec' := cleanup_aux parse cutoff rest disk
        (e :: rec'.1, rec'.2.1, rec'.2.2)
    | none =>
      let rec' := cleanup_aux parse cutoff rest disk
      (e :: rec'.1, rec'.2.1, rec'.2.2)

/-- Model of `HistoryManager.cleanup_old_files`.  Note the source only
reassigns `self.history` and saves when `removed_count > 0`. -/
def cleanup_old_files (cfg : Config) (parse : String → Option Int) (now : Int)
    (s : StoreState) : Nat × StoreState :=
  if cfg.auto_cleanup_days ≤ 0 then (0, s)
  else
    let cutoff := now - cfg.auto_cleanup_days * 86400
    let r := cleanup_aux parse cutoff s.history s.disk
    if r.2.1 > 0 then (r.2.1, { history := r.1, savedIndex := r.1, disk := r.2.2 })
    else (r.2.1, { history := s.history, savedIndex := s.savedIndex, disk := r.2.2 })

/-- Concrete timestamp parse used in closed theorems: a small table of
well-formed ISO timestamp strings and their instants in seconds (epoch
2026-10-04T00:00:00).  Every other string fails to parse, mirroring how
`datetime.fromisoformat` raises on malformed input. -/
def tsParse (s : String) : Option Int :=
  if s = "2026-10-04T00:00:00" then some 0
  else if s = "2026-10-11T23:40:00" then some 690000
  else none

/-! ### Basic lemmas about the disk model -/

theorem pathExists_iff {d : List String} {p : String} :
    pathExists d p = true ↔ p ∈ d := by
  simp [pathExists]

theorem mem_delete_file {d : List String} {p q : String} :
    q ∈ (delete_audio_file d p).2 ↔ q ∈ d ∧ ¬(q = p ∧ p ∈ d) := by
  unfold delete_audio_file
  split_ifs with h
  · simp only [List.mem_filter, decide_eq_true_eq]
    constructor
    · rintro ⟨hq, hne⟩; exact ⟨hq, fun hc => hne hc.1⟩
    · rintro ⟨hq, hn⟩; exact ⟨hq, fun hc => hn ⟨hc, h⟩⟩
  · constructor
    · intro hq; exact ⟨hq, fun hc => h hc.2⟩
    · exact fun hq => hq.1

theorem delete_file_self {d : List String} {p : String} :
    p ∉ (delete_audio_file d p).2 := by
  intro hmem
  rcases mem_delete_file.mp hmem with ⟨hd, hn⟩
  exact hn ⟨rfl, hd⟩

theorem mem_evictFiles {L : List Entry} :
    ∀ {d : List String} {q : String}, q ∈ evictFiles d L → q ∈ d := by
  induction L with
  | nil => intro d q h; exact h
  | cons f rest ih =>
    intro d q h
    exact (mem_delete_file.mp (ih h)).1

theorem evictFiles_not_mem {L : List Entry} :
    ∀ {d : List String} {e : Entry}, e ∈ L → e.filepath ∉ evictFiles d L := by
  induction L with
  | nil => intro d e h; cases h
  | cons f rest ih =>
    intro d e h hmem
    rcases List.mem_cons.mp h with rfl | hrest
    · exact delete_file_self (mem_evictFiles hmem)
    · exact ih hrest hmem

/-! ### Lemmas about a single successful add -/

theorem add_audio_fst (cfg : Config) (s : StoreState) (r : AddReq) :
    (add_audio cfg s r true).1 = some (mkEntry cfg r) := by
  show ((if (mkEntry cfg r :: s.history).length > cfg.max_files then _ else _ : Option Entry × StoreState)).1 = _
  split <;> rfl

theorem add_audio_history (cfg : Config) (s : StoreState) (r : AddReq) :
    (add_audio cfg s r true).2.history
      = (mkEntry cfg r :: s.history).take cfg.max_files := by
  show ((if (mkEntry cfg r :: s.history).length > cfg.max_files then _ else _ : Option Entry × StoreState)).2.history = _
  split
  · rfl
  · next h =>
    exact (List.take_of_length_le (Nat.le_of_not_lt h)).symm

theorem add_audio_savedIndex (cfg : Config) (s : StoreState) (r : AddReq) :
    (add_audio cfg s r true).2.savedIndex
      = (mkEntry cfg r :: s.history).take cfg.max_files := by
  show ((if (mkEntry cfg r :: s.history).length > cfg.max_files then _ else _ : Option Entry × StoreState)).2.savedIndex = _
  split
  · rfl
  · next h =>
    exact (List.take_of_length_le (Nat.le_of_not_lt h)).symm

theorem add_audio_evicted_files (cfg : Config) (s : StoreState) (r : AddReq) :
    ∀ e ∈ (mkEntry cfg r :: s.history).drop cfg.max_files,
      pathExists (add_audio cfg s r true).2.disk e.filepath = false := by
  intro e he
  show pathExists ((if (mkEntry cfg r :: s.history).length > cfg.max_files then _ else _ : Option Entry × StoreState)).2.disk _ = _
  split
  · next h =>
    simp only [pathExists, decide_eq_false_iff_not]
    exact evictFiles_not_mem he
  · next h =>
    rw [List.drop_eq_nil_of_le (Nat.le_of_not_lt h)] at he
    cases he

/-! ### The truncation invariant of iterated adds -/

theorem take_append_take (A l : List Entry) (m : Nat) :
    (A ++ l.take m).take m = (A ++ l).take m := by
  rw [List.take_append_eq_append_take, List.take_append_eq_append_take,
    List.take_take, Nat.min_eq_left (Nat.sub_le m A.length)]

theorem applyAdds_history (cfg : Config) :
    ∀ (reqs : List AddReq) (s : StoreState), reqs ≠ [] →
      (applyAdds cfg s reqs).history
        = ((reqs.map (mkEntry cfg)).reverse ++ s.history).take cfg.max_files := by
  intro reqs
  induction reqs with
  | nil => intro s h; exact absurd rfl h
  | cons r rs ih =>
    intro s _
    show (applyAdds cfg (add_audio cfg s r true).2 rs).history = _
    by_cases hrs : rs = []
    · subst hrs
      show (add_audio cfg s r true).2.history = _
      rw [add_audio_history]
      simp
    · rw [ih _ hrs, add_audio_history]
      have : (mkEntry cfg r :: s.history)
          = [mkEntry cfg r] ++ s.history := rfl
      rw [this, take_append_take, List.map_cons, List.reverse_cons,
        List.append_assoc]

/-! ### Concrete sample data for closed theorems and witnesses -/

def cfgW : Config := ⟨"r", 1, 7⟩

def s0W : StoreState := ⟨[], [], []⟩

def reqA : AddReq := ⟨"a", "2026-10-04T00:00:00", "h", "v", "g", [1, 2]⟩

def reqB : AddReq := ⟨"b", "2026-10-11T23:40:00", "w", "v", "g", [3]⟩

def entA : Entry :=
  ⟨"a", "h", "h", "v", "g", "a.wav", "r/a.wav", "2026-10-04T00:00:00", 2⟩

def entB : Entry :=
  ⟨"b", "w", "w", "v", "g", "b.wav", "r/b.wav", "2026-10-11T23:40:00", 1⟩

/-! ### Claim theorems: C1, C4, C6 -/

/-- C1: a sequence of `maxEntries + k` successful `add` calls (`k ≥ 1`)
leaves exactly `maxEntries` entries, namely the most recently added ones in
newest-first order; moreover each single successful `add` prepends its new
entry, truncates the index (in-memory and persisted) to the bound, and the
payload file of every evicted tail entry is deleted from disk. -/
theorem history_bounded_after_adds (cfg : Config) (s s' : StoreState)
    (reqs : List AddReq) (k : Nat) (r : AddReq)
    (hk : 1 ≤ k) (hlen : reqs.length = cfg.max_files + k) :
    ((applyAdds cfg s reqs).history
        = ((reqs.map (mkEntry cfg)).reverse).take cfg.max_files
      ∧ (applyAdds cfg s reqs).history.length = cfg.max_files)
    ∧ ((add_audio cfg s' r true).2.history
        = (mkEntry cfg r :: s'.history).take cfg.max_files
      ∧ (add_audio cfg s' r true).2.savedIndex
        = (mkEntry cfg r :: s'.history).take cfg.max_files
      ∧ ∀ e ∈ (mkEntry cfg r :: s'.history).drop cfg.max_files,
          pathExists (add_audio cfg s' r true).2.disk e.filepath = false) := by
  have hne : reqs ≠ [] := by
    intro h
    rw [h] at hlen
    simp at hlen
    omega
  have hlen' : cfg.max_files ≤ ((reqs.map (mkEntry cfg)).reverse).length := by
    simp [hlen]
  refine ⟨⟨?_, ?_⟩, add_audio_history cfg s' r, add_audio_savedIndex cfg s' r,
    add_audio_evicted_files cfg s' r⟩
  · rw [applyAdds_history cfg reqs s hne,
      List.take_append_of_le_length hlen']
  · rw [applyAdds_history cfg reqs s hne, List.length_take]
    have h2 : cfg.max_files
        ≤ ((reqs.map (mkEntry cfg)).reverse ++ s.history).length := by
      simp [hlen]
      omega
    exact inf_eq_left.mpr h2

/-- Witness for C1: capacity 1, two successful adds, the survivor is the
second (most recent) request's entry. -/
theorem history_bounded_after_adds_witness :
    (applyAdds cfgW s0W [reqA, reqB]).history
      = (([reqA, reqB].map (mkEntry cfgW)).reverse).take cfgW.max_files :=
  (history_bounded_after_adds cfgW s0W s0W [reqA, reqB] 1 reqA
    (by decide) (by decide)).1.1

/-- C4: when the payload write fails, `add_audio` returns the failure value
(`none`, the source's `return None`, the spec's `StorageWriteError`
outcome) and neither the in-memory sequence nor the persisted index
changes — the payload write happens before the index commit, so no index
entry is created. -/
theorem add_audio_write_failure (cfg : Config) (s : StoreState) (r : AddReq) :
    (add_audio cfg s r false).1 = none
    ∧ (add_audio cfg s r false).2.history = s.history
    ∧ (add_audio cfg s r false).2.savedIndex = s.savedIndex :=
  ⟨rfl, rfl, rfl⟩

/-- C6 (amended): for every positive limit `n`, `get_history` returns the
newest-first sequence truncated to its first `n` entries; with no limit or
with limit `0` (which the source's `if limit:` treats as absent) it
returns the entire sequence.  The embedding of `get_history` is a pure
function of the state, so the call mutates neither the in-memory sequence
nor the persisted index. -/
theorem get_history_truncates (s : StoreState) (n : Int) (h : 0 < n) :
    get_history s (some n) = s.history.take n.toNat
    ∧ get_history s none = s.history
    ∧ get_history s (some 0) = s.history := by
  refine ⟨?_, rfl, by simp [get_history]⟩
  simp [get_history, h.ne', pyTake, h.le]

/-- Witness for C6 (amended) at limit 1 on a two-entry store. -/
theorem get_history_truncates_witness :
    get_history ⟨[entB, entA], [entB, entA], []⟩ (some 1)
      = [entB, entA].take (1 : Int).toNat :=
  (get_history_truncates ⟨[entB, entA], [entB, entA], []⟩ 1 (by decide)).1

/-- C6 counterexample: on a non-empty store, `get_history` with the
supplied limit `0` returns the whole sequence rather than its first `0`
entries, because the source's `if limit:` treats a zero limit as absent. -/
theorem get_history_zero_limit_cex :
    get_history ⟨[entA], [entA], ["r/a.wav"]⟩ (some 0)
      ≠ ([entA] : List Entry).take (0 : Int).toNat := by
  decide

/-! ### Lemmas about the lookup loop of get_audio_file -/

theorem gaf_aux_no_match {d : List String} {aid : String} :
    ∀ {hist : List Entry}, (∀ e ∈ hist, e.id ≠ aid) →
      gaf_aux d aid hist = (none, hist, false) := by
  intro hist
  induction hist with
  | nil => intro _; rfl
  | cons f rest ih =>
    intro h
    have hf : f.id ≠ aid := h f (List.mem_cons_self f rest)
    have hrec := ih (fun e he => h e (List.mem_cons_of_mem f he))
    simp [gaf_aux, if_neg hf, hrec]

theorem gaf_aux_some {d : List String} {aid : String} :
    ∀ {hist : List Entry} {p : String},
      (gaf_aux d aid hist).1 = some p →
      ∃ e ∈ hist, e.id = aid ∧ pathExists d e.filepath = true
        ∧ p = e.filepath := by
  intro hist
  induction hist with
  | nil => intro p h; cases h
  | cons f rest ih =>
    intro p h
    by_cases hf : f.id = aid
    · by_cases hex : pathExists d f.filepath = true
      · rw [gaf_aux, if_pos hf, if_pos hex] at h
        cases h
        exact ⟨f, List.mem_cons_self f rest, hf, hex, rfl⟩
      · rw [gaf_aux, if_pos hf, if_neg hex] at h
        cases h
    · rw [gaf_aux, if_neg hf] at h
      rcases ih h with ⟨e, he, heid, hexi, hp⟩
      exact ⟨e, List.mem_cons_of_mem f he, heid, hexi, hp⟩

theorem gaf_aux_found_exists {d : List String} {aid : String} :
    ∀ {hist : List Entry}, (hist.map Entry.id).Nodup →
      ∀ {e : Entry}, e ∈ hist → e.id = aid →
      pathExists d e.filepath = true →
      gaf_aux d aid hist = (some e.filepath, hist, false) := by
  intro hist
  induction hist with
  | nil => intro _ e he; cases he
  | cons f rest ih =>
    intro hN e he heid hex
    have hN' : (rest.map Entry.id).Nodup := (List.nodup_cons.mp hN).2
    have hfid : f.id ∉ rest.map Entry.id := (List.nodup_cons.mp hN).1
    rcases List.mem_cons.mp he with rfl | hrest
    · rw [gaf_aux, if_pos heid, if_pos hex]
    · have hf : f.id ≠ aid := by
        intro hc
        refine hfid ?_
        rw [hc, ← heid]
        exact List.mem_map_of_mem Entry.id hrest
      rw [gaf_aux, if_neg hf, ih hN' hrest heid hex]

theorem gaf_aux_found_missing {d : List String} {aid : String} :
    ∀ {hist : List Entry}, (hist.map Entry.id).Nodup →
      ∀ {e : Entry}, e ∈ hist → e.id = aid →
      pathExists d e.filepath = false →
      gaf_aux d aid hist
        = (none, hist.filter (fun x => x.id ≠ aid), true) := by
  intro hist
  induction hist with
  | nil => intro _ e he; cases he
  | cons f rest ih =>
    intro hN e he heid hmiss
    have hN' : (rest.map Entry.id).Nodup := (List.nodup_cons.mp hN).2
    have hfid : f.id ∉ rest.map Entry.id := (List.nodup_cons.mp hN).1
    rcases List.mem_cons.mp he with rfl | hrest
    · rw [gaf_aux, if_pos heid, if_neg (by simp [hmiss])]
      have hfil : List.filter (fun x => decide (x.id ≠ aid)) (e :: rest) = rest := by
        rw [List.filter_cons, if_neg (by simp [heid])]
        apply List.filter_eq_self.mpr
        intro x hx
        simp only [decide_eq_true_eq]
        intro hc
        refine hfid ?_
        rw [heid, ← hc]
        exact List.mem_map_of_mem Entry.id hx
      rw [hfil]
    · have hf : f.id ≠ aid := by
        intro hc
        refine hfid ?_
        rw [hc, ← heid]
        exact List.mem_map_of_mem Entry.id hrest
      rw [gaf_aux, if_neg hf, ih hN' hrest heid hmiss]
      simp [List.filter_cons, hf]

/-- Members of any `get_history` result are members of the history. -/
theorem mem_get_history {s : StoreState} {limit : Option Int} {x : Entry} :
    x ∈ get_history s limit → x ∈ s.history := by
  intro hx
  cases limit with
  | none => exact hx
  | some n =>
    rw [get_history] at hx
    split at hx
    · rw [pyTake] at hx
      split at hx
      · exact List.take_subset _ _ hx
      · exact List.take_subset _ _ hx
    · exact hx

/-! ### Claim theorems: C5, C7 -/

/-- C5: `get_audio_file` returns the payload path iff the index entry and
its backing file both exist; when the index has the entry but the file is
missing it removes the stale entry, persists the removal (the saved index
equals the new in-memory one), and returns not-found, so no subsequent
`get_history` result contains the id.  The id-uniqueness hypothesis is the
store invariant (ids are generated by `uuid4`). -/
theorem get_audio_file_spec (s : StoreState) (audio_id : String)
    (hN : (s.history.map Entry.id).Nodup) :
    ((get_audio_file s audio_id).1.isSome = true
      ↔ ∃ e ∈ s.history, e.id = audio_id ∧ pathExists s.disk e.filepath = true)
    ∧ (∀ e ∈ s.history, e.id = audio_id → pathExists s.disk e.filepath = true →
        get_audio_file s audio_id = (some e.filepath, s))
    ∧ (∀ e ∈ s.history, e.id = audio_id → pathExists s.disk e.filepath = false →
        (get_audio_file s audio_id).1 = none
        ∧ (get_audio_file s audio_id).2.history
            = s.history.filter (fun x => x.id ≠ audio_id)
        ∧ (get_audio_file s audio_id).2.savedIndex
            = (get_audio_file s audio_id).2.history
        ∧ ∀ (limit : Option Int),
            ∀ x ∈ get_history (get_audio_file s audio_id).2 limit,
              x.id ≠ audio_id) := by
  refine ⟨⟨?_, ?_⟩, ?_, ?_⟩
  · intro hs
    rcases Option.isSome_iff_exists.mp hs with ⟨p, hp⟩
    have hp' : (gaf_aux s.disk audio_id s.history).1 = some p := hp
    rcases gaf_aux_some hp' with ⟨e, he, heid, hex, _⟩
    exact ⟨e, he, heid, hex⟩
  · rintro ⟨e, he, heid, hex⟩
    have hgaf := gaf_aux_found_exists (d := s.disk) hN he heid hex
    show (gaf_aux s.disk audio_id s.history).1.isSome = true
    rw [hgaf]
    rfl
  · intro e he heid hex
    have hgaf := gaf_aux_found_exists (d := s.disk) hN he heid hex
    show ((gaf_aux s.disk audio_id s.history).1,
        { history := (gaf_aux s.disk audio_id s.history).2.1
          savedIndex := if (gaf_aux s.disk audio_id s.history).2.2 then
              (gaf_aux s.disk audio_id s.history).2.1
            else s.savedIndex
          disk := s.disk }) = ((some e.filepath : Option String), s)
    rw [hgaf]
    rfl
  · intro e he heid hmiss
    have hgaf := gaf_aux_found_missing hN he heid hmiss
    have h1 : (get_audio_file s audio_id).1 = none := by
      show (gaf_aux s.disk audio_id s.history).1 = none
      rw [hgaf]
    have h2 : (get_audio_file s audio_id).2.history
        = s.history.filter (fun x => x.id ≠ audio_id) := by
      show (gaf_aux s.disk audio_id s.history).2.1 = _
      rw [hgaf]
    have h3 : (get_audio_file s audio_id).2.savedIndex
        = s.history.filter (fun x => x.id ≠ audio_id) := by
      show (if (gaf_aux s.disk audio_id s.history).2.2 then
          (gaf_aux s.disk audio_id s.history).2.1
        else s.savedIndex) = _
      rw [hgaf]
      rfl
    refine ⟨h1, h2, by rw [h2]; exact h3, ?_⟩
    intro limit x hx
    have hx' := mem_get_history hx
    rw [h2] at hx'
    have := (List.mem_filter.mp hx').2
    simpa using this

/-- Witness for C5: a store whose only entry's file is missing on disk;
the lookup self-heals and reports not-found. -/
theorem get_audio_file_spec_witness :
    (get_audio_file ⟨[entA], [entA], []⟩ "a").1 = none :=
  ((get_audio_file_spec ⟨[entA], [entA], []⟩ "a" (by decide)).2.2 entA
    (by decide) rfl (by decide)).1

/-! ### Lemmas about the delete loop -/

theorem del_aux_no_match {d : List String} {aid : String} :
    ∀ {hist : List Entry}, (∀ e ∈ hist, e.id ≠ aid) →
      del_aux d aid hist = (false, hist, d) := by
  intro hist
  induction hist with
  | nil => intro _; rfl
  | cons f rest ih =>
    intro h
    have hf : f.id ≠ aid := h f (List.mem_cons_self f rest)
    have hrec := ih (fun e he => h e (List.mem_cons_of_mem f he))
    simp [del_aux, if_neg hf, hrec]

theorem del_aux_found {d : List String} {aid : String} :
    ∀ {hist : List Entry}, (hist.map Entry.id).Nodup →
      ∀ {e : Entry}, e ∈ hist → e.id = aid →
      del_aux d aid hist
        = (true, hist.filter (fun x => x.id ≠ aid),
            (delete_audio_file d e.filepath).2) := by
  intro hist
  induction hist with
  | nil => intro _ e he; cases he
  | cons f rest ih =>
    intro hN e he heid
    have hN' : (rest.map Entry.id).Nodup := (List.nodup_cons.mp hN).2
    have hfid : f.id ∉ rest.map Entry.id := (List.nodup_cons.mp hN).1
    rcases List.mem_cons.mp he with rfl | hrest
    · rw [del_aux, if_pos heid]
      have hfil : List.filter (fun x => decide (x.id ≠ aid)) (e :: rest) = rest := by
        rw [List.filter_cons, if_neg (by simp [heid])]
        apply List.filter_eq_self.mpr
        intro x hx
        simp only [decide_eq_true_eq]
        intro hc
        refine hfid ?_
        rw [heid, ← hc]
        exact List.mem_map_of_mem Entry.id hx
      rw [hfil]
    · have hf : f.id ≠ aid := by
        intro hc
        refine hfid ?_
        rw [hc, ← heid]
        exact List.mem_map_of_mem Entry.id hrest
      rw [del_aux, if_neg hf, ih hN' hrest heid]
      simp [List.filter_cons, hf]

/-- C7: `delete_audio` on a present id returns true, removes the index
entry, leaves the payload file absent from disk, and persists the removal;
on an absent id it returns false and changes nothing; hence a second
delete of the same id returns false and leaves the store unchanged. -/
theorem delete_audio_spec (s : StoreState) (audio_id : String)
    (hN : (s.history.map Entry.id).Nodup) :
    ((∀ e ∈ s.history, e.id ≠ audio_id) →
        delete_audio s audio_id = (false, s))
    ∧ (∀ e ∈ s.history, e.id = audio_id →
        (delete_audio s audio_id).1 = true
        ∧ (delete_audio s audio_id).2.history
            = s.history.filter (fun x => x.id ≠ audio_id)
        ∧ pathExists (delete_audio s audio_id).2.disk e.filepath = false
        ∧ (delete_audio s audio_id).2.savedIndex
            = (delete_audio s audio_id).2.history
        ∧ delete_audio (delete_audio s audio_id).2 audio_id
            = (false, (delete_audio s audio_id).2)) := by
  constructor
  · intro h
    rw [delete_audio, del_aux_no_match h]
    rfl
  · intro e he heid
    have hdel := del_aux_found (d := s.disk) hN he heid
    have hres : delete_audio s audio_id
        = (true, { history := s.history.filter (fun x => x.id ≠ audio_id)
                   savedIndex := s.history.filter (fun x => x.id ≠ audio_id)
                   disk := (delete_audio_file s.disk e.filepath).2 }) := by
      rw [delete_audio, hdel]
      rfl
    refine ⟨by rw [hres], by rw [hres], ?_, by rw [hres], ?_⟩
    · rw [hres]
      simp only [pathExists, decide_eq_false_iff_not]
      exact delete_file_self
    · have hnomatch : ∀ x ∈ (delete_audio s audio_id).2.history,
          x.id ≠ audio_id := by
        intro x hx
        rw [hres] at hx
        have := (List.mem_filter.mp hx).2
        simpa using this
      rw [delete_audio, del_aux_no_match hnomatch]
      rfl

/-- Witness for C7: deleting the only entry succeeds. -/
theorem delete_audio_spec_witness :
    (delete_audio ⟨[entA], [entA], ["r/a.wav"]⟩ "a").1 = true :=
  ((delete_audio_spec ⟨[entA], [entA], ["r/a.wav"]⟩ "a" (by decide)).2 entA
    (by decide) rfl).1

/-! ### Lemmas about the clear_all fold -/

theorem clear_fold_disk_mem :
    ∀ (hist : List Entry) (c0 : Nat) (d : List String) (q : String),
      q ∈ (hist.foldl clearStep (c0, d)).2
        ↔ q ∈ d ∧ ∀ e ∈ hist, e.filepath ≠ q := by
  intro hist
  induction hist with
  | nil =>
    intro c0 d q
    simp
  | cons f rest ih =>
    intro c0 d q
    have hstep : clearStep (c0, d) f
        = ((if (delete_audio_file d f.filepath).1 then c0 + 1 else c0),
            (delete_audio_file d f.filepath).2) := rfl
    rw [List.foldl_cons, hstep, ih]
    rw [mem_delete_file]
    constructor
    · rintro ⟨⟨hqd, hnq⟩, hrest⟩
      refine ⟨hqd, ?_⟩
      intro e he
      rcases List.mem_cons.mp he with rfl | hr
      · intro hc
        exact hnq ⟨hc.symm, hc ▸ hqd⟩
      · exact hrest e hr
    · rintro ⟨hqd, hall⟩
      refine ⟨⟨hqd, ?_⟩, ?_⟩
      · rintro ⟨hc, _⟩
        exact hall f (List.mem_cons_self f rest) hc.symm
      · intro e he
        exact hall e (List.mem_cons_of_mem f he)

theorem clear_fold_count :
    ∀ (hist : List Entry), (hist.map Entry.filepath).Nodup →
      ∀ (c0 : Nat) (d : List String),
      (hist.foldl clearStep (c0, d)).1
        = c0 + (hist.filter (fun e => pathExists d e.filepath)).length := by
  intro hist
  induction hist with
  | nil =>
    intro _ c0 d
    simp
  | cons f rest ih =>
    intro hN c0 d
    have hN' := (List.nodup_cons.mp hN).2
    have hfp : f.filepath ∉ rest.map Entry.filepath := (List.nodup_cons.mp hN).1
    rw [List.foldl_cons]
    by_cases hd : f.filepath ∈ d
    · have hstep : clearStep (c0, d) f
          = (c0 + 1, d.filter (fun q => q ≠ f.filepath)) := by
        simp [clearStep, delete_audio_file, hd]
      rw [hstep, ih hN']
      have hcong : rest.filter
            (fun e => pathExists (d.filter (fun q => q ≠ f.filepath)) e.filepath)
          = rest.filter (fun e => pathExists d e.filepath) := by
        apply List.filter_congr
        intro x hx
        have hxne : x.filepath ≠ f.filepath := by
          intro hc
          exact hfp (hc ▸ List.mem_map_of_mem Entry.filepath hx)
        simp [pathExists, decide_eq_decide, List.mem_filter, hxne]
      rw [hcong]
      have hhead : (f :: rest).filter (fun e => pathExists d e.filepath)
          = f :: rest.filter (fun e => pathExists d e.filepath) := by
        rw [List.filter_cons, if_pos (by simp [pathExists, hd])]
      rw [hhead, List.length_cons]
      omega
    · have hstep : clearStep (c0, d) f = (c0, d) := by
        simp [clearStep, delete_audio_file, hd]
      rw [hstep, ih hN']
      have hhead : (f :: rest).filter (fun e => pathExists d e.filepath)
          = rest.filter (fun e => pathExists d e.filepath) := by
        rw [List.filter_cons, if_neg (by simp [pathExists, hd])]
      rw [hhead]

/-- C8: `clear_all` deletes every payload file and every index entry:
afterwards the listing is empty, the persisted index is empty and — when
every file in the storage root belongs to some entry — no payload file
remains; the returned count is the number of entries whose file actually
existed (a missing file is simply not counted).  The path-uniqueness
hypothesis is the store invariant (paths are derived from unique ids). -/
theorem clear_all_spec (s : StoreState)
    (hND : (s.history.map Entry.filepath).Nodup)
    (hcov : ∀ p ∈ s.disk, ∃ e ∈ s.history, e.filepath = p) :
    (clear_all s).2.history = []
    ∧ (clear_all s).2.savedIndex = []
    ∧ get_history (clear_all s).2 none = []
    ∧ (clear_all s).2.disk = []
    ∧ (clear_all s).1
        = (s.history.filter (fun e => pathExists s.disk e.filepath)).length := by
  have hdisk : (clear_all s).2.disk = [] := by
    show (s.history.foldl clearStep (0, s.disk)).2 = []
    apply List.eq_nil_iff_forall_not_mem.mpr
    intro q hq
    rcases (clear_fold_disk_mem s.history 0 s.disk q).mp hq with ⟨hqd, hall⟩
    rcases hcov q hqd with ⟨e, he, hfp⟩
    exact hall e he hfp
  refine ⟨rfl, rfl, rfl, hdisk, ?_⟩
  show (s.history.foldl clearStep (0, s.disk)).1 = _
  rw [clear_fold_count s.history hND 0 s.disk, Nat.zero_add]

/-- Witness for C8: two entries, only one of whose files exists; the count
is the number of files actually deleted. -/
theorem clear_all_spec_witness :
    (clear_all ⟨[entB, entA], [entB, entA], ["r/a.wav"]⟩).1
      = (([entB, entA] : List Entry).filter
          (fun e => pathExists ["r/a.wav"] e.filepath)).length :=
  (clear_all_spec ⟨[entB, entA], [entB, entA], ["r/a.wav"]⟩ (by decide)
    (by decide)).2.2.2.2

/-! ### Lemmas about the cleanup loop -/

theorem cleanup_aux_history (parse : String → Option Int) (cutoff : Int) :
    ∀ (hist : List Entry) (d : List String),
      (cleanup_aux parse cutoff hist d).1
        = hist.filter (fun e => !isExpired parse cutoff e) := by
  intro hist
  induction hist with
  | nil => intro d; rfl
  | cons f rest ih =>
    intro d
    rw [cleanup_aux]
    cases hp : parse f.timestamp with
    | none =>
      have hexp : isExpired parse cutoff f = false := by simp [isExpired, hp]
      simp only [ih]
      rw [List.filter_cons, if_pos (by simp [hexp])]
    | some t =>
      by_cases ht : t < cutoff
      · have hexp : isExpired parse cutoff f = true := by
          simp [isExpired, hp, ht]
        simp only [if_pos ht, ih]
        rw [List.filter_cons, if_neg (by simp [hexp])]
      · have hexp : isExpired parse cutoff f = false := by
          simp [isExpired, hp, ht]
        simp only [if_neg ht, ih]
        rw [List.filter_cons, if_pos (by simp [hexp])]

theorem cleanup_aux_disk_not_mem (parse : String → Option Int) (cutoff : Int) :
    ∀ (hist : List Entry) (d : List String) (q : String),
      q ∉ d → q ∉ (cleanup_aux parse cutoff hist d).2.2 := by
  intro hist
  induction hist with
  | nil => intro d q h; exact h
  | cons f rest ih =>
    intro d q h
    rw [cleanup_aux]
    cases hp : parse f.timestamp with
    | none => exact ih d q h
    | some t =>
      by_cases ht : t < cutoff
      · simp only [if_pos ht]
        refine ih _ q ?_
        intro hc
        exact h (mem_delete_file.mp hc).1
      · simp only [if_neg ht]
        exact ih d q h

theorem cleanup_aux_expired_not_mem (parse : String → Option Int)
    (cutoff : Int) :
    ∀ (hist : List Entry) (d : List String) (e : Entry),
      e ∈ hist → isExpired parse cutoff e = true →
      e.filepath ∉ (cleanup_aux parse cutoff hist d).2.2 := by
  intro hist
  induction hist with
  | nil => intro d e he; cases he
  | cons f rest ih =>
    intro d e he hexp
    rw [cleanup_aux]
    rcases List.mem_cons.mp he with rfl | hrest
    · rcases hpt : parse e.timestamp with _ | t
      · rw [isExpired, hpt] at hexp
        cases hexp
      · have ht : t < cutoff := by
          rw [isExpired, hpt] at hexp
          exact of_decide_eq_true hexp
        simp only [if_pos ht]
        exact cleanup_aux_disk_not_mem parse cutoff rest _ e.filepath
          delete_file_self
    · cases hp : parse f.timestamp with
      | none => exact ih d e hrest hexp
      | some t =>
        by_cases ht : t < cutoff
        · simp only [if_pos ht]
          exact ih _ e hrest hexp
        · simp only [if_neg ht]
          exact ih d e hrest hexp

theorem cleanup_aux_count (parse : String → Option Int) (cutoff : Int) :
    ∀ (hist : List Entry),
      ((hist.filter (isExpired parse cutoff)).map Entry.filepath).Nodup →
      ∀ (d : List String),
      (cleanup_aux parse cutoff hist d).2.1
        = (hist.filter (fun e =>
            isExpired parse cutoff e && pathExists d e.filepath)).length := by
  intro hist
  induction hist with
  | nil => intro _ d; rfl
  | cons f rest ih =>
    intro hN d
    rw [cleanup_aux]
    cases hp : parse f.timestamp with
    | none =>
      have hexp : isExpired parse cutoff f = false := by simp [isExpired, hp]
      have hN' : ((rest.filter (isExpired parse cutoff)).map
          Entry.filepath).Nodup := by
        rwa [List.filter_cons, if_neg (by simp [hexp])] at hN
      rw [ih hN' d, List.filter_cons, if_neg (by simp [hexp])]
    | some t =>
      by_cases ht : t < cutoff
      · have hexp : isExpired parse cutoff f = true := by
          simp [isExpired, hp, ht]
        have hNcons : ((f :: rest.filter (isExpired parse cutoff)).map
            Entry.filepath).Nodup := by
          rwa [List.filter_cons, if_pos (by simp [hexp])] at hN
        have hN' : ((rest.filter (isExpired parse cutoff)).map
            Entry.filepath).Nodup := (List.nodup_cons.mp hNcons).2
        have hfp : f.filepath
            ∉ (rest.filter (isExpired parse cutoff)).map Entry.filepath :=
          (List.nodup_cons.mp hNcons).1
        simp only [if_pos ht]
        by_cases hd : f.filepath ∈ d
        · have hdel : delete_audio_file d f.filepath
              = (true, d.filter (fun q => q ≠ f.filepath)) := by
            simp [delete_audio_file, hd]
          rw [hdel]
          simp only
          rw [ih hN' (d.filter (fun q => q ≠ f.filepath))]
          have hcong : rest.filter (fun e => isExpired parse cutoff e
                && pathExists (d.filter (fun q => q ≠ f.filepath)) e.filepath)
              = rest.filter (fun e => isExpired parse cutoff e
                && pathExists d e.filepath) := by
            apply List.filter_congr
            intro x hx
            by_cases hex : isExpired parse cutoff x = true
            · have hxne : x.filepath ≠ f.filepath := by
                intro hc
                refine hfp ?_
                rw [← hc]
                exact List.mem_map_of_mem Entry.filepath
                  (List.mem_filter.mpr ⟨hx, hex⟩)
              simp [hex, pathExists, decide_eq_decide, List.mem_filter, hxne]
            · simp [Bool.not_eq_true] at hex
              simp [hex]
          have hcond : (isExpired parse cutoff f
              && pathExists d f.filepath) = true := by
            simp [hexp, pathExists, hd]
          rw [hcong, List.filter_cons, if_pos hcond, List.length_cons]
          exact Nat.add_comm 1 _
        · have hdel : delete_audio_file d f.filepath = (false, d) := by
            simp [delete_audio_file, hd]
          rw [hdel]
          simp only
          have hcond : ¬(isExpired parse cutoff f
              && pathExists d f.filepath) = true := by
            simp [pathExists, hd]
          rw [ih hN' d, List.filter_cons, if_neg hcond]
          exact Nat.zero_add _
      · have hexp : isExpired parse cutoff f = false := by
          simp [isExpired, hp, ht]
        have hN' : ((rest.filter (isExpired parse cutoff)).map
            Entry.filepath).Nodup := by
          rwa [List.filter_cons, if_neg (by simp [hexp])] at hN
        simp only [if_neg ht]
        rw [ih hN' d, List.filter_cons, if_neg (by simp [hexp])]

/-! ### Claim theorems: C3 -/

/-- C3 (amended): with `maxAgeDays <= 0` the cleanup is a no-op returning 0.
Otherwise it deletes the payload files of all expired entries (strictly
older than the cutoff `now - maxAgeDays`; unparseable timestamps are never
expired) and returns the number of payload files actually deleted — not
the number of expired entries.  Only when that number is positive does it
remove the expired entries from the index and persist the kept-only
index; when it is zero (every expired entry's file already missing) the
index, in memory and on disk, is left unchanged.  Entries at or after the
cutoff are always kept.  The path-uniqueness hypothesis (over expired
entries) is the store invariant. -/
theorem cleanup_old_files_spec (cfg : Config) (parse : String → Option Int)
    (now : Int) (s : StoreState)
    (hpos : 0 < cfg.auto_cleanup_days)
    (hND : ((s.history.filter
        (isExpired parse (now - cfg.auto_cleanup_days * 86400))).map
          Entry.filepath).Nodup) :
    (∀ (cfg' : Config) (s' : StoreState), cfg'.auto_cleanup_days ≤ 0 →
        cleanup_old_files cfg' parse now s' = (0, s'))
    ∧ (cleanup_old_files cfg parse now s).1
        = (s.history.filter (fun e =>
            isExpired parse (now - cfg.auto_cleanup_days * 86400) e
              && pathExists s.disk e.filepath)).length
    ∧ (cleanup_old_files cfg parse now s).2.history
        = (if 0 < (cleanup_old_files cfg parse now s).1 then
            s.history.filter (fun e =>
              !isExpired parse (now - cfg.auto_cleanup_days * 86400) e)
          else s.history)
    ∧ (cleanup_old_files cfg parse now s).2.savedIndex
        = (if 0 < (cleanup_old_files cfg parse now s).1 then
            (cleanup_old_files cfg parse now s).2.history
          else s.savedIndex)
    ∧ (∀ e ∈ s.history,
        isExpired parse (now - cfg.auto_cleanup_days * 86400) e = true →
        pathExists (cleanup_old_files cfg parse now s).2.disk e.filepath
          = false)
    ∧ (∀ e ∈ s.history,
        isExpired parse (now - cfg.auto_cleanup_days * 86400) e = false →
        e ∈ (cleanup_old_files cfg parse now s).2.history) := by
  have hnle : ¬cfg.auto_cleanup_days ≤ 0 := not_le.mpr hpos
  have hunfold : cleanup_old_files cfg parse now s
      = (if (cleanup_aux parse (now - cfg.auto_cleanup_days * 86400)
            s.history s.disk).2.1 > 0 then
          ((cleanup_aux parse (now - cfg.auto_cleanup_days * 86400)
              s.history s.disk).2.1,
            { history := (cleanup_aux parse
                (now - cfg.auto_cleanup_days * 86400) s.history s.disk).1
              savedIndex := (cleanup_aux parse
                (now - cfg.auto_cleanup_days * 86400) s.history s.disk).1
              disk := (cleanup_aux parse
                (now - cfg.auto_cleanup_days * 86400) s.history s.disk).2.2 })
        else
          ((cleanup_aux parse (now - cfg.auto_cleanup_days * 86400)
              s.history s.disk).2.1,
            { history := s.history
              savedIndex := s.savedIndex
              disk := (cleanup_aux parse
                (now - cfg.auto_cleanup_days * 86400) s.history s.disk).2.2 })) := by
    rw [cleanup_old_files, if_neg hnle]
  refine ⟨?_, ?_, ?_, ?_, ?_, ?_⟩
  · intro cfg' s' hle
    rw [cleanup_old_files, if_pos hle]
  · rw [hunfold]
    split
    · exact cleanup_aux_count parse _ s.history hND s.disk
    · exact cleanup_aux_count parse _ s.history hND s.disk
  · by_cases hc : (cleanup_aux parse (now - cfg.auto_cleanup_days * 86400)
        s.history s.disk).2.1 > 0
    · have hres := hunfold.trans (if_pos hc)
      rw [hres, if_pos hc]
      exact cleanup_aux_history parse _ s.history s.disk
    · have hres := hunfold.trans (if_neg hc)
      rw [hres, if_neg hc]
  · by_cases hc : (cleanup_aux parse (now - cfg.auto_cleanup_days * 86400)
        s.history s.disk).2.1 > 0
    · have hres := hunfold.trans (if_pos hc)
      rw [hres, if_pos hc]
    · have hres := hunfold.trans (if_neg hc)
      rw [hres, if_neg hc]
  · intro e he hexp
    have hnot := cleanup_aux_expired_not_mem parse
      (now - cfg.auto_cleanup_days * 86400) s.history s.disk e he hexp
    rw [hunfold]
    split
    · simp only [pathExists, decide_eq_false_iff_not]
      exact hnot
    · simp only [pathExists, decide_eq_false_iff_not]
      exact hnot
  · intro e he hexp
    rw [hunfold]
    split
    · show e ∈ (cleanup_aux parse (now - cfg.auto_cleanup_days * 86400)
        s.history s.disk).1
      rw [cleanup_aux_history parse _ s.history s.disk]
      exact List.mem_filter.mpr ⟨he, by simp [hexp]⟩
    · exact he

/-- Witness for C3 (amended): one expired entry whose file exists; the
cleanup deletes it, returns 1, and rewrites the index. -/
theorem cleanup_old_files_spec_witness :
    (cleanup_old_files cfgW tsParse 691200 ⟨[entA], [entA], ["r/a.wav"]⟩).1
      = (([entA] : List Entry).filter (fun e =>
          isExpired tsParse (691200 - cfgW.auto_cleanup_days * 86400) e
            && pathExists ["r/a.wav"] e.filepath)).length :=
  (cleanup_old_files_spec cfgW tsParse 691200 ⟨[entA], [entA], ["r/a.wav"]⟩
    (by decide) (by decide)).2.1

/-- C3 counterexample: `maxAgeDays = 7`, one entry 8 days old whose payload
file is already missing — the claim says the entry is evicted, but
`cleanup_old_files` deletes no file, returns 0, and keeps the expired
entry in the index (the source only rewrites the index when
`removed_count > 0`). -/
theorem cleanup_old_files_keeps_expired_cex :
    isExpired tsParse (691200 - cfgW.auto_cleanup_days * 86400) entA = true
    ∧ cleanup_old_files cfgW tsParse 691200 ⟨[entA], [entA], []⟩
        = (0, ⟨[entA], [entA], []⟩) := by
  decide

/-! ### Engine registry embedding (src/enhanced_tts_manager.py) -/

/-- One voice dict of an engine's `get_voices` catalog (only the fields
the claims need). -/
structure Voice where
  vid : String
  vname : String
  deriving DecidableEq

/-- One registered engine: its static metadata and voice catalog.  The
numpy audio its `synthesize` would produce is opaque to the claims, so the
registry embedding records which engine a call is delegated to instead. -/
structure Engine where
  name : String
  description : String
  voices : List Voice
  deriving DecidableEq

/-- `EnhancedTTSManager` state: `self.engines` (a Python dict —
insertion-ordered association list with unique keys) and
`self.current_engine`. -/
structure TTSManager where
  engines : List (String × Engine)
  current_engine : Option String
  deriving DecidableEq

/-- The dict keys, `self.engines.keys()`. -/
def engineKeys (m : TTSManager) : List String := m.engines.map Prod.fst

/-- Dict access `self.engines[engine_id]` (keys are unique). -/
def lookupEngine (m : TTSManager) (eid : String) : Option Engine :=
  (m.engines.find? (fun p => p.1 = eid)).map Prod.snd

/-- Python truthiness of an optional string: `None` and `""` are falsy. -/
def truthy : Option String → Bool
  | none => false
  | some s => s ≠ ""

/-- The `engine_id = engine_id or self.current_engine` fallback. -/
def resolve_engine_id (eid cur : Option String) : Option String :=
  if truthy eid then eid else cur

/-- One element of the `get_available_engines` listing. -/
structure EngineDescriptor where
  id : String
  name : String
  description : String
  current : Bool
  deriving DecidableEq

/-- Model of `EnhancedTTSManager.get_available_engines`. -/
def get_available_engines (m : TTSManager) : List EngineDescriptor :=
  m.engines.map (fun p =>
    { id := p.1
      name := p.2.name
      description := p.2.description
      current := decide (some p.1 = m.current_engine) })

/-- Model of `EnhancedTTSManager.switch_engine`. -/
def switch_engine (m : TTSManager) (eid : String) : Bool × TTSManager :=
  if eid ∈ engineKeys m then (true, { m with current_engine := some eid })
  else (false, m)

/-- Model of `EnhancedTTSManager.get_voices`: guard
`if engine_id and engine_id in self.engines`, else `[]`. -/
def get_voices (m : TTSManager) (eid : Option String) : List Voice :=
  match resolve_engine_id eid m.current_engine with
  | some s =>
    if s ≠ "" then
      match lookupEngine m s with
      | some e => e.voices
      | none => []
    else []
  | none => []

/-- Model of `EnhancedTTSManager.synthesize`: the same guard, but the
failing branch is `raise ValueError(...)`, embedded as `Except.error`; on
success the embedding returns the id of the engine delegated to. -/
def synthesize (m : TTSManager) (eid : Option String) : Except String String :=
  match resolve_engine_id eid m.current_engine with
  | some s =>
    if s ≠ "" ∧ s ∈ engineKeys m then Except.ok s
    else Except.error ("Engine not available: " ++ s)
  | none => Except.error "Engine not available: None"

/-- Sample engines and manager for closed theorems. -/
def gEng : Engine := ⟨"Google TTS", "Google online TTS", [⟨"v1", "V one"⟩]⟩

def cEng : Engine := ⟨"Coqui TTS", "Neural TTS", [⟨"lj", "LJ"⟩]⟩

def mW : TTSManager := ⟨[("google", gEng), ("coqui", cEng)], some "google"⟩

/-! ### Lemmas about the registry -/

theorem countP_key_eq_one :
    ∀ (l : List (String × Engine)) (eid : String),
      (l.map Prod.fst).Nodup → eid ∈ l.map Prod.fst →
      l.countP (fun p => decide (p.1 = eid)) = 1 := by
  intro l
  induction l with
  | nil => intro eid _ h; cases h
  | cons kv rest ih =>
    intro eid hN hmem
    have hN' : (rest.map Prod.fst).Nodup := (List.nodup_cons.mp hN).2
    have hk : kv.1 ∉ rest.map Prod.fst := (List.nodup_cons.mp hN).1
    by_cases hke : kv.1 = eid
    · rw [List.countP_cons_of_pos _ _ (by simp [hke])]
      have hzero : rest.countP (fun p => decide (p.1 = eid)) = 0 := by
        apply List.countP_eq_zero.mpr
        intro p hp
        simp only [decide_eq_true_eq]
        intro hc
        exact hk (hke ▸ hc ▸ List.mem_map_of_mem Prod.fst hp)
      rw [hzero]
    · rw [List.countP_cons_of_neg _ _ (by simp [hke])]
      refine ih eid hN' ?_
      rcases List.mem_map.mp hmem with ⟨p, hp, hpe⟩
      rcases List.mem_cons.mp hp with rfl | hpr
      · exact absurd hpe hke
      · exact hpe ▸ List.mem_map_of_mem Prod.fst hpr

/-! ### Claim theorems: C2, C10, C9 -/

/-- C2: for a registered id, `switch_engine` returns true, sets the active
engine, and the subsequent listing marks exactly that id as current (it is
the one and only descriptor with `current = true`); for an unregistered id
it returns false and leaves the manager untouched.  Key uniqueness is the
Python-dict invariant. -/
theorem switch_engine_spec (m : TTSManager) (eid : String)
    (hN : (engineKeys m).Nodup) :
    (eid ∈ engineKeys m →
      (switch_engine m eid).1 = true
      ∧ (switch_engine m eid).2.current_engine = some eid
      ∧ (∀ d ∈ get_available_engines (switch_engine m eid).2,
          d.current = true ↔ d.id = eid)
      ∧ ((get_available_engines (switch_engine m eid).2).filter
          (fun d => d.current)).length = 1)
    ∧ (eid ∉ engineKeys m → switch_engine m eid = (false, m)) := by
  constructor
  · intro hmem
    have hsw : switch_engine m eid
        = (true, { m with current_engine := some eid }) := by
      rw [switch_engine, if_pos hmem]
    refine ⟨by rw [hsw], by rw [hsw], ?_, ?_⟩
    · intro d hd
      rw [hsw] at hd
      rcases List.mem_map.mp hd with ⟨p, _, rfl⟩
      simp
    · rw [hsw]
      rw [get_available_engines]
      rw [← List.countP_eq_length_filter, List.countP_map]
      have hcong : m.engines.countP
            ((fun (d : EngineDescriptor) => d.current) ∘ (fun p =>
              { id := p.1
                name := p.2.name
                description := p.2.description
                current := decide (some p.1 = some eid) }))
          = m.engines.countP (fun p => decide (p.1 = eid)) := by
        apply List.countP_congr
        intro p _
        simp [Function.comp]
      rw [hcong]
      exact countP_key_eq_one m.engines eid hN hmem
  · intro hmem
    rw [switch_engine, if_neg hmem]

/-- Witness for C2: switching the sample manager to its other engine. -/
theorem switch_engine_spec_witness :
    (switch_engine mW "coqui").1 = true :=
  ((switch_engine_spec mW "coqui" (by decide)).1 (by decide)).1

/-- C10 (amended): for every explicitly supplied NON-EMPTY engine id that
is not a registered key, `synthesize` raises (`ValueError` branch,
`Except.error`) even when an active engine is set, while `get_voices`
with the same id returns the empty list without raising — the two
delegating operations handle unknown ids asymmetrically. -/
theorem unknown_engine_asymmetry (m : TTSManager) (eid a : String)
    (_hcur : m.current_engine = some a)
    (hne : eid ≠ "") (hnk : eid ∉ engineKeys m) :
    synthesize m (some eid) = Except.error ("Engine not available: " ++ eid)
    ∧ get_voices m (some eid) = [] := by
  have hres : resolve_engine_id (some eid) m.current_engine = some eid := by
    rw [resolve_engine_id, if_pos (by simp [truthy, hne])]
  constructor
  · rw [synthesize, hres]
    show (if eid ≠ "" ∧ eid ∈ engineKeys m then Except.ok eid
        else Except.error ("Engine not available: " ++ eid)) = _
    rw [if_neg]
    rintro ⟨_, hk⟩
    exact hnk hk
  · rw [get_voices, hres]
    have hlook : lookupEngine m eid = none := by
      rw [lookupEngine, List.find?_eq_none.mpr]
      · rfl
      · intro p hp
        simp only [decide_eq_true_eq]
        intro hc
        exact hnk (hc ▸ List.mem_map_of_mem Prod.fst hp)
    show (if eid ≠ "" then
        (match lookupEngine m eid with
          | some e => e.voices
          | none => ([] : List Voice))
      else []) = []
    rw [if_pos hne, hlook]

/-- Witness for C10 (amended): an unknown non-empty id on the sample
manager with an active engine set. -/
theorem unknown_engine_asymmetry_witness :
    synthesize mW (some "azure")
      = Except.error ("Engine not available: " ++ "azure") :=
  (unknown_engine_asymmetry mW "azure" "google" rfl (by decide)
    (by decide)).1

/-- C10 counterexample: the empty string is an explicitly supplied id that
is not a registered key, yet `engine_id or self.current_engine` treats it
as absent: `synthesize` delegates to the active engine instead of raising
and `get_voices` returns the active engine's non-empty catalog. -/
theorem unknown_engine_empty_string_cex :
    ("" ∉ engineKeys mW)
    ∧ mW.current_engine = some "google"
    ∧ synthesize mW (some "") = Except.ok "google"
    ∧ get_voices mW (some "") ≠ [] :=
  ⟨by decide, rfl, rfl, by decide⟩

/-! ### The unsynchronised cleanup/add interleaving (C9) -/

/-- The tail of `cleanup_old_files` (partition and conditional commit) run
against a stale `snapshot` of the history.  `HistoryManager` defines no
lock, so the daemon cleanup thread started by `_start_cleanup_timer` may
execute its loop over one value of `self.history` while a request thread
completes `add_audio`, and then assign `self.history = new_history`
computed from the stale snapshot. -/
def cleanup_commit (cfg : Config) (parse : String → Option Int) (now : Int)
    (snapshot : List Entry) (s : StoreState) : Nat × StoreState :=
  if cfg.auto_cleanup_days ≤ 0 then (0, s)
  else
    let cutoff := now - cfg.auto_cleanup_days * 86400
    let r := cleanup_aux parse cutoff snapshot s.disk
    if r.2.1 > 0 then
      (r.2.1, { history := r.1, savedIndex := r.1, disk := r.2.2 })
    else
      (r.2.1, { history := s.history, savedIndex := s.savedIndex,
                disk := r.2.2 })

/-- Store configuration for the race scenario (default-like capacity). -/
def cfg9 : Config := ⟨"r", 100, 7⟩

/-- Starting state of the race: one expired entry whose file exists. -/
def raceStart : StoreState := ⟨[entA], [entA], ["r/a.wav"]⟩

/-- C9: the code holds no lock around `self.history` mutations, and the
claimed mutual exclusion fails: if the cleanup thread snapshots the
history, a request thread then completes `add_audio` (the fresh, unexpired
entry `b` is in the index), and the cleanup thread then commits the
`new_history` it computed from the stale snapshot, the entry `b` vanishes
from the index even though its payload file stays on disk. -/
theorem cleanup_add_race :
    ((add_audio cfg9 raceStart reqB true).2.history.any
        (fun e => e.id = "b") = true)
    ∧ isExpired tsParse (691200 - cfg9.auto_cleanup_days * 86400)
        (mkEntry cfg9 reqB) = false
    ∧ ((cleanup_commit cfg9 tsParse 691200 raceStart.history
          (add_audio cfg9 raceStart reqB true).2).2.history.all
        (fun e => e.id ≠ "b") = true)
    ∧ pathExists
        (cleanup_commit cfg9 tsParse 691200 raceStart.history
          (add_audio cfg9 raceStart reqB true).2).2.disk "r/b.wav" = true := by
  decide

end GenVoice
